import Mathlib

/-
  Verification of ptsim.c, an educational simulator of paged virtual memory.

  Shallow embedding conventions:
  * The C array `unsigned char mem[MEM_SIZE]` is modelled as a total function
    `Mem := Nat -> Nat`; every write truncates the stored value modulo 256,
    matching the `unsigned char` cells.  Indices are natural numbers (the C
    driver only produces nonnegative `int` indices; out-of-bounds accesses are
    undefined behaviour in C and simply extend the array in the model).
  * Each C function is translated into a Lean function of the same name that
    takes the memory state explicitly and returns the new state (and the
    result value where the C function returns one).  The C sentinel -1 of
    `allocate_next_page` becomes `Option Nat`.
  * `for` loops with `break`/`return` become structural recursion over the
    list of loop indices (`List.range`), stopping exactly where the C code
    stops.
-/

namespace Ptsim

/-! ### Definitions: the embedding of ptsim.c -/

def MEM_SIZE : Nat := 16384

def PAGE_SIZE : Nat := 256

def PAGE_COUNT : Nat := 64

def PAGE_SHIFT : Nat := 8

def PTP_OFFSET : Nat := 64

/-- Simulated RAM: byte values indexed by physical address. -/
abbrev Mem := Nat → Nat

/-- A single byte store `mem[addr] = v` (the cell is an `unsigned char`). -/
def writeMem (m : Mem) (addr v : Nat) : Mem :=
  fun a => if a = addr then v % 256 else m a

/-- `int get_address(int page, int offset) { return (page << PAGE_SHIFT) | offset; }` -/
def get_address (page offset : Nat) : Nat :=
  (page <<< PAGE_SHIFT) ||| offset

/-- `initialize_mem`: zero the RAM, then mark the zero page allocated. -/
def initialize_mem : Mem :=
  writeMem (fun _ => 0) (get_address 0 0) 1

/-- `unsigned char get_page_table(int proc_num)` -/
def get_page_table (m : Mem) (proc_num : Nat) : Nat :=
  m (get_address 0 (PTP_OFFSET + proc_num))

/-- `void set_page_table(int proc_num, int page)` -/
def set_page_table (m : Mem) (proc_num page : Nat) : Mem :=
  writeMem m (get_address 0 (PTP_OFFSET + proc_num)) page

/-- The scan loop of `allocate_next_page` over the remaining indices:
    at the first index whose byte is 0, set the byte to 1 and stop. -/
def allocate_loop (m : Mem) : List Nat → Option Nat × Mem
  | [] => (none, m)
  | i :: rest => if m i = 0 then (some i, writeMem m i 1) else allocate_loop m rest

/-- `int allocate_next_page()`: scan the bitmap over `[0, PTP_OFFSET)`;
    `none` models the C return value -1. -/
def allocate_next_page (m : Mem) : Option Nat × Mem :=
  allocate_loop m (List.range PTP_OFFSET)

/-- The data-page loop of `new_process`: for each remaining index, allocate a
    page; on failure return at once, otherwise record the page in the page
    table entry and continue. -/
def new_process_loop (pt : Nat) (m : Mem) : List Nat → Mem
  | [] => m
  | i :: rest =>
    match allocate_next_page m with
    | (none, m1) => m1
    | (some page, m1) => new_process_loop pt (writeMem m1 (get_address pt i) page) rest

/-- `void new_process(int proc_num, int page_count)` -/
def new_process (m : Mem) (proc_num page_count : Nat) : Mem :=
  match allocate_next_page m with
  | (none, m1) => m1
  | (some page_table, m1) =>
    new_process_loop page_table (set_page_table m1 proc_num page_table) (List.range page_count)

/-- The scan loop of `kill_process` over the remaining page-table offsets:
    read the entry from the current memory and, when it is nonzero, clear the
    byte at the index it names. -/
def kill_loop (pt : Nat) : List Nat → Mem → Mem
  | [], m => m
  | i :: rest, m =>
    let page := m (get_address pt i)
    kill_loop pt rest (if page ≠ 0 then writeMem m page 0 else m)

/-- `void kill_process(int proc_num)` -/
def kill_process (m : Mem) (proc_num : Nat) : Mem :=
  let page_table := get_page_table m proc_num
  writeMem (kill_loop page_table (List.range PAGE_SIZE) m) page_table 0

/-- `int translate_virtual_address(int proc_num, int vaddr)` -/
def translate_virtual_address (m : Mem) (proc_num vaddr : Nat) : Nat :=
  let pte_index := vaddr >>> 8
  let offset := vaddr &&& 255
  let page_table := get_page_table m proc_num
  let page := m (get_address page_table pte_index)
  get_address page offset

/-- `void store_value(int proc_num, int vaddr, unsigned char value)`
    (without the trace output). -/
def store_value (m : Mem) (proc_num vaddr value : Nat) : Mem :=
  writeMem m (translate_virtual_address m proc_num vaddr) value

/-- `void load_value(int proc_num, int vaddr)`: the byte the trace line
    reports; the memory is not modified. -/
def load_value (m : Mem) (proc_num vaddr : Nat) : Nat :=
  m (translate_virtual_address m proc_num vaddr)

/-! ### Definitions: derived notions used to state the claims -/

/-- The number of free bytes in the free-page bitmap `[0, PTP_OFFSET)`. -/
def freeCount (m : Mem) : Nat :=
  (List.range PTP_OFFSET).countP fun i => m i == 0

/-- A memory all of whose cells hold byte values; every state the program can
    reach has this shape. -/
def ByteMem (m : Mem) : Prop :=
  ∀ a, m a < 256

/-- One lifecycle command of the driver (`np`, `kp`, `sb`, `lb`). -/
inductive Op where
  | np (proc_num page_count : Nat)
  | kp (proc_num : Nat)
  | sb (proc_num vaddr value : Nat)
  | lb (proc_num vaddr : Nat)

/-- The memory effect of one command (`load_value` does not modify memory). -/
def runOp (m : Mem) : Op → Mem
  | Op.np p k => new_process m p k
  | Op.kp p => kill_process m p
  | Op.sb p v x => store_value m p v x
  | Op.lb _ _ => m

/-- The memory after a whole command sequence. -/
def runTrace (m : Mem) (ops : List Op) : Mem :=
  ops.foldl runOp m

/-- The side conditions of the amended claim C1: `kill_process` is only called
    on a process whose directory entry is nonzero, and `store_value` either
    resolves to a nonzero physical address or stores a nonzero byte. -/
def guardOk (m : Mem) : Op → Prop
  | Op.kp p => get_page_table m p ≠ 0
  | Op.sb p v x => translate_virtual_address m p v ≠ 0 ∨ x % 256 ≠ 0
  | _ => True

/-- Every command of the sequence satisfies its guard in the state in which
    it runs. -/
def guardedTrace (m : Mem) : List Op → Prop
  | [] => True
  | op :: ops => guardOk m op ∧ guardedTrace (runOp m op) ops

/-- The loop described by claim C2, with page 0 itself as the page table:
    for each offset `i` in turn, when the byte at index `i` is nonzero, clear
    the byte at the index that byte names. -/
def killZeroSpecLoop : List Nat → Mem → Mem
  | [], m => m
  | i :: rest, m => killZeroSpecLoop rest (if m i ≠ 0 then writeMem m (m i) 0 else m)

/-- The behaviour claim C2 describes for `kill_process` when the directory
    entry is 0: run the loop over offsets `[0, PAGE_SIZE)` of page 0 and
    finally clear the byte at index 0. -/
def killZeroSpec (m : Mem) : Mem :=
  writeMem (killZeroSpecLoop (List.range PAGE_SIZE) m) 0 0

/-- A memory whose whole bitmap region is allocated, for exercising the
    failure branch of the allocator. -/
def fullBitmap : Mem :=
  fun a => if a < PTP_OFFSET then 1 else 0

/-- A memory with page 0 allocated and exactly the two bitmap bytes 62 and 63
    free, for exercising a mid-loop allocation failure of `new_process`. -/
def nearFull : Mem :=
  fun a => if a < PTP_OFFSET then (if 62 ≤ a then 0 else 1) else 0

/-- A state whose only change from the initial one is a nonzero directory
    entry (page 3) for process 0. -/
def dirOnly : Mem :=
  writeMem initialize_mem (get_address 0 PTP_OFFSET) 3

/-- The command sequence of the counterexample to claim C4: create and kill a
    process so that page 1 keeps a stale page-table entry naming page 2, mark
    page 2 allocated again through an unmapped store, then give page 1 to
    process 1 as its page table with no data pages. -/
def staleTrace : List Op :=
  [Op.np 0 1, Op.kp 0, Op.sb 1 258 1, Op.np 1 0]

/-! ### Helper lemmas -/

theorem writeMem_same (m : Mem) (a v : Nat) : writeMem m a v a = v % 256 := by
  simp [writeMem]

theorem writeMem_other (m : Mem) {a b : Nat} (v : Nat) (h : b ≠ a) :
    writeMem m a v b = m b := by
  simp [writeMem, h]

/-- For an in-range offset the bitwise-or composition is plain arithmetic. -/
theorem get_address_eq (page : Nat) {offset : Nat} (h : offset < 256) :
    get_address page offset = 256 * page + offset := by
  have h2 : offset < 2 ^ 8 := h
  have key := (Nat.mul_add_lt_is_or h2 page).symm
  unfold get_address PAGE_SHIFT
  rw [Nat.shiftLeft_eq, Nat.mul_comm page]
  exact key.trans (by norm_num)

theorem get_address_zero (offset : Nat) : get_address 0 offset = offset := by
  unfold get_address
  simp

theorem or_eq_zero_left {x y : Nat} (h : x ||| y = 0) : x = 0 := by
  apply Nat.eq_of_testBit_eq
  intro i
  have h2 : (x ||| y).testBit i = Nat.testBit 0 i := by rw [h]
  simp only [Nat.testBit_or] at h2
  simp at h2
  simp [h2.1]

theorem get_address_pos {page : Nat} (h : 0 < page) (offset : Nat) :
    0 < get_address page offset := by
  rcases Nat.eq_zero_or_pos (get_address page offset) with h0 | h0
  · unfold get_address at h0
    have hz := or_eq_zero_left h0
    rw [Nat.shiftLeft_eq] at hz
    rcases Nat.mul_eq_zero.mp hz with h1 | h1
    · omega
    · norm_num at h1
  · exact h0

theorem and_255_eq_mod (n : Nat) : n &&& 255 = n % 256 := by
  have h := Nat.and_pow_two_sub_one_eq_mod n 8
  norm_num at h
  exact h

theorem shiftRight_8_eq_div (n : Nat) : n >>> 8 = n / 256 := by
  have h := Nat.shiftRight_eq_div_pow n 8
  norm_num at h
  exact h

theorem kill_loop_zero_pt (l : List Nat) :
    ∀ m : Mem, kill_loop 0 l m = killZeroSpecLoop l m := by
  induction l with
  | nil => intro m; rfl
  | cons i rest ih =>
    intro m
    simp only [kill_loop, killZeroSpecLoop, get_address_zero]
    exact ih _

theorem allocate_loop_none (l : List Nat) :
    ∀ m : Mem, (∀ i ∈ l, m i ≠ 0) → allocate_loop m l = (none, m) := by
  induction l with
  | nil => intro m _; rfl
  | cons i rest ih =>
    intro m h
    have hi : m i ≠ 0 := h i (List.mem_cons_self i rest)
    simp only [allocate_loop, if_neg hi]
    exact ih m fun j hj => h j (List.mem_cons_of_mem i hj)

theorem allocate_loop_some (n : Nat) :
    ∀ s (m : Mem) j, s ≤ j → j < s + n → m j = 0 →
      (∀ i, s ≤ i → i < j → m i ≠ 0) →
      allocate_loop m (List.range' s n) = (some j, writeMem m j 1) := by
  induction n with
  | zero => intro s m j h1 h2; omega
  | succ n ih =>
    intro s m j h1 h2 h3 h4
    rw [List.range'_succ]
    by_cases hs : m s = 0
    · have hj : j = s := by
        by_contra hne
        exact h4 s le_rfl (by omega) hs
      subst hj
      simp only [allocate_loop, if_pos hs]
    · have hj : s + 1 ≤ j := by
        rcases Nat.eq_or_lt_of_le h1 with h | h
        · exact absurd h3 (h ▸ hs)
        · omega
      simp only [allocate_loop, if_neg hs]
      exact ih (s + 1) m j hj (by omega) h3 fun i hi1 hi2 => h4 i (by omega) hi2

/-- Full characterization of the allocator: on success it returns the lowest
    free bitmap index and sets its byte to 1; with no free byte it returns
    `none` and the memory is unchanged. -/
theorem allocate_next_page_characterization (m : Mem) :
    ((∃ j, j < PTP_OFFSET ∧ m j = 0) →
      ∃ j, allocate_next_page m = (some j, writeMem m j 1) ∧
        j < PTP_OFFSET ∧ m j = 0 ∧ ∀ i, i < j → m i ≠ 0) ∧
    ((∀ i, i < PTP_OFFSET → m i ≠ 0) → allocate_next_page m = (none, m)) := by
  constructor
  · intro h
    have hfind := Nat.find_spec h
    refine ⟨Nat.find h, ?_, hfind.1, hfind.2, ?_⟩
    · unfold allocate_next_page
      rw [List.range_eq_range']
      exact allocate_loop_some PTP_OFFSET 0 m (Nat.find h) (Nat.zero_le _)
        (by omega) hfind.2 fun i _ hi => by
          have := Nat.find_min h hi
          intro hzero
          exact this ⟨by omega, hzero⟩
    · intro i hi hzero
      exact Nat.find_min h hi ⟨by omega, hzero⟩
  · intro h
    unfold allocate_next_page
    exact allocate_loop_none _ m fun i hi => h i (by simpa using List.mem_range.mp hi)

/-! #### Free-page accounting -/

theorem countP_write_notmem (l : List Nat) (m : Mem) (a v : Nat) (ha : a ∉ l) :
    (l.countP fun i => writeMem m a v i == 0) = l.countP fun i => m i == 0 := by
  apply List.countP_congr
  intro x hx
  rw [writeMem_other m v (fun he => ha (by rwa [he] at hx))]

theorem countP_write_free (n : Nat) :
    ∀ (m : Mem) a v, a < n → m a = 0 → v % 256 ≠ 0 →
      ((List.range n).countP fun i => writeMem m a v i == 0) + 1
        = (List.range n).countP fun i => m i == 0 := by
  induction n with
  | zero => intro m a v ha _ _; exact absurd ha (Nat.not_lt_zero a)
  | succ n ih =>
    intro m a v ha h0 hv
    rw [List.range_succ, List.countP_append, List.countP_append]
    by_cases han : a = n
    · subst han
      rw [countP_write_notmem _ m a v (by simp)]
      have h1 : (List.countP (fun i => writeMem m a v i == 0) [a]) = 0 := by
        simp [List.countP_cons, writeMem_same, hv]
      have h2 : (List.countP (fun i => m i == 0) [a]) = 1 := by
        simp [List.countP_cons, h0]
      omega
    · have h1 := ih m a v (by omega) h0 hv
      have h2 : (List.countP (fun i => writeMem m a v i == 0) [n])
          = List.countP (fun i => m i == 0) [n] := by
        simp [List.countP_cons, writeMem_other m v (Ne.symm han)]
      omega

theorem countP_write_used (n : Nat) :
    ∀ (m : Mem) a, a < n → m a ≠ 0 →
      ((List.range n).countP fun i => writeMem m a 0 i == 0)
        = ((List.range n).countP fun i => m i == 0) + 1 := by
  induction n with
  | zero => intro m a ha _; exact absurd ha (Nat.not_lt_zero a)
  | succ n ih =>
    intro m a ha h0
    rw [List.range_succ, List.countP_append, List.countP_append]
    by_cases han : a = n
    · subst han
      rw [countP_write_notmem _ m a 0 (by simp)]
      have h1 : (List.countP (fun i => writeMem m a 0 i == 0) [a]) = 1 := by
        simp [List.countP_cons, writeMem_same]
      have h2 : (List.countP (fun i => m i == 0) [a]) = 0 := by
        simp [List.countP_cons, h0]
      omega
    · have h1 := ih m a (by omega) h0
      have h2 : (List.countP (fun i => writeMem m a 0 i == 0) [n])
          = List.countP (fun i => m i == 0) [n] := by
        simp [List.countP_cons, writeMem_other m 0 (Ne.symm han)]
      omega

theorem freeCount_write_free {m : Mem} {a : Nat} (v : Nat) (ha : a < PTP_OFFSET)
    (h0 : m a = 0) (hv : v % 256 ≠ 0) :
    freeCount (writeMem m a v) + 1 = freeCount m :=
  countP_write_free PTP_OFFSET m a v ha h0 hv

theorem freeCount_write_used {m : Mem} {a : Nat} (ha : a < PTP_OFFSET) (h0 : m a ≠ 0) :
    freeCount (writeMem m a 0) = freeCount m + 1 :=
  countP_write_used PTP_OFFSET m a ha h0

theorem freeCount_write_high (m : Mem) (a v : Nat) (ha : PTP_OFFSET ≤ a) :
    freeCount (writeMem m a v) = freeCount m :=
  countP_write_notmem _ m a v (by simp [List.mem_range]; omega)

theorem freeCount_pos_iff (m : Mem) :
    0 < freeCount m ↔ ∃ j, j < PTP_OFFSET ∧ m j = 0 := by
  unfold freeCount
  rw [List.countP_pos_iff]
  constructor
  · rintro ⟨j, hj, hzero⟩
    exact ⟨j, by simpa using hj, by simpa using hzero⟩
  · rintro ⟨j, hj, hzero⟩
    exact ⟨j, by simpa using hj, by simpa using hzero⟩

/-- The allocator scan never touches index 0 when its byte is nonzero, and in
    that case it cannot return page 0. -/
theorem allocate_loop_keeps_zero (l : List Nat) :
    ∀ m : Mem, m 0 ≠ 0 →
      (allocate_loop m l).2 0 ≠ 0 ∧ (allocate_loop m l).1 ≠ some 0 := by
  induction l with
  | nil => intro m h; exact ⟨h, by simp [allocate_loop]⟩
  | cons i rest ih =>
    intro m h
    by_cases hi : m i = 0
    · have hne : i ≠ 0 := fun he => h (he ▸ hi)
      refine ⟨?_, ?_⟩
      · simp only [allocate_loop, if_pos hi]
        rw [writeMem_other m 1 (Ne.symm hne)]
        exact h
      · simp only [allocate_loop, if_pos hi]
        simp [hne]
    · simp only [allocate_loop, if_neg hi]
      exact ih m h

theorem allocate_next_page_keeps_zero (m : Mem) (h : m 0 ≠ 0) :
    (allocate_next_page m).2 0 ≠ 0 ∧ (allocate_next_page m).1 ≠ some 0 :=
  allocate_loop_keeps_zero (List.range PTP_OFFSET) m h

theorem new_process_loop_keeps_zero (l : List Nat) :
    ∀ (m : Mem) pt, 0 < pt → m 0 ≠ 0 → new_process_loop pt m l 0 ≠ 0 := by
  induction l with
  | nil => intro m pt _ h; exact h
  | cons i rest ih =>
    intro m pt hpt h
    have halloc := allocate_next_page_keeps_zero m h
    rcases heq : allocate_next_page m with ⟨r, m1⟩
    rw [heq] at halloc
    rcases r with _ | page
    · simp only [new_process_loop, heq]
      exact halloc.1
    · simp only [new_process_loop, heq]
      have haddr : (0 : Nat) ≠ get_address pt i := by
        have := get_address_pos hpt i
        omega
      refine ih _ pt hpt ?_
      rw [writeMem_other m1 page haddr]
      exact halloc.1

theorem new_process_keeps_zero (m : Mem) (p k : Nat) (h : m 0 ≠ 0) :
    new_process m p k 0 ≠ 0 := by
  have halloc := allocate_next_page_keeps_zero m h
  rcases heq : allocate_next_page m with ⟨r, m1⟩
  rw [heq] at halloc
  rcases r with _ | pt
  · simp only [new_process, heq]
    exact halloc.1
  · have hpt : 0 < pt := by
      have h2 := halloc.2
      simp at h2
      omega
    simp only [new_process, heq]
    refine new_process_loop_keeps_zero _ _ pt hpt ?_
    unfold set_page_table
    rw [get_address_zero,
      writeMem_other m1 pt (show (0 : Nat) ≠ PTP_OFFSET + p by unfold PTP_OFFSET; omega)]
    exact halloc.1

/-- The inductive core of `new_process`: from a state with at least
    `l.length` free pages and page 0 allocated, the data-page loop leaves
    every address outside the touched bitmap bytes and the listed page-table
    entries unchanged, fills those entries with distinct, nonzero, previously
    free page numbers below `PTP_OFFSET`, marks each of them allocated, and
    consumes exactly `l.length` free pages. -/
theorem new_process_loop_spec (l : List Nat) :
    ∀ (m : Mem) (pt : Nat), 0 < pt → l.Nodup → (∀ i ∈ l, i < PAGE_SIZE) →
      m 0 ≠ 0 → l.length ≤ freeCount m →
      (∀ a, PTP_OFFSET ≤ a → (∀ i ∈ l, a ≠ 256 * pt + i) →
        new_process_loop pt m l a = m a) ∧
      (∀ a, a < PTP_OFFSET → m a ≠ 0 → new_process_loop pt m l a = m a) ∧
      (∀ i ∈ l, 0 < new_process_loop pt m l (256 * pt + i) ∧
        new_process_loop pt m l (256 * pt + i) < PTP_OFFSET ∧
        m (new_process_loop pt m l (256 * pt + i)) = 0 ∧
        new_process_loop pt m l (new_process_loop pt m l (256 * pt + i)) = 1) ∧
      (∀ i ∈ l, ∀ j ∈ l, i ≠ j →
        new_process_loop pt m l (256 * pt + i) ≠ new_process_loop pt m l (256 * pt + j)) ∧
      freeCount (new_process_loop pt m l) = freeCount m - l.length := by
  induction l with
  | nil =>
    intro m pt _ _ _ _ _
    exact ⟨fun a _ _ => rfl, fun a _ _ => rfl, by simp, by simp, by simp [new_process_loop]⟩
  | cons i0 rest ih =>
    intro m pt hpt hnodup hbound h0 hlen
    have hPTP : PTP_OFFSET = 64 := rfl
    have hPS : PAGE_SIZE = 256 := rfl
    have hlen' : rest.length + 1 ≤ freeCount m := by simpa using hlen
    have hfree : ∃ j, j < PTP_OFFSET ∧ m j = 0 :=
      (freeCount_pos_iff m).mp (by omega)
    obtain ⟨d, halloc, hd64, hd0, -⟩ := (allocate_next_page_characterization m).1 hfree
    have hdpos : 0 < d := Nat.pos_of_ne_zero fun he => h0 (by rwa [he] at hd0)
    have hi0 : i0 < PAGE_SIZE := hbound i0 (List.mem_cons_self _ _)
    have haddr : get_address pt i0 = 256 * pt + i0 := get_address_eq pt (by omega)
    have hptbig : 256 ≤ 256 * pt := by omega
    obtain ⟨hnodup0, hnodupr⟩ := List.nodup_cons.mp hnodup
    have hboundr : ∀ i ∈ rest, i < PAGE_SIZE := fun i hi =>
      hbound i (List.mem_cons_of_mem _ hi)
    have hstep : new_process_loop pt m (i0 :: rest)
        = new_process_loop pt (writeMem (writeMem m d 1) (get_address pt i0) d) rest := by
      simp only [new_process_loop, halloc]
    rw [haddr] at hstep
    set m2 := writeMem (writeMem m d 1) (256 * pt + i0) d with hm2def
    have hm2_low : ∀ a, a < 256 → a ≠ d → m2 a = m a := by
      intro a ha hne
      rw [hm2def, writeMem_other _ d (by omega), writeMem_other m 1 hne]
    have hm2_d : m2 d = 1 := by
      rw [hm2def, writeMem_other _ d (by omega), writeMem_same]
    have hm2_entry0 : m2 (256 * pt + i0) = d := by
      rw [hm2def, writeMem_same]
      omega
    have hm2_entry_rest : ∀ i, i < PAGE_SIZE → i ≠ i0 → m2 (256 * pt + i) = m (256 * pt + i) := by
      intro i hi hne
      rw [hm2def, writeMem_other _ d (by omega), writeMem_other m 1 (by omega)]
    have hm2_frame : ∀ a, PTP_OFFSET ≤ a → a ≠ 256 * pt + i0 → m2 a = m a := by
      intro a ha hne
      rw [hm2def, writeMem_other _ d hne, writeMem_other m 1 (by omega)]
    have hm2_count : freeCount m2 = freeCount m - 1 := by
      have h1 := freeCount_write_free (m := m) (a := d) 1 hd64 hd0 (by norm_num)
      have h2 : freeCount m2 = freeCount (writeMem m d 1) := by
        rw [hm2def]
        exact freeCount_write_high _ _ _ (by omega)
      omega
    have hm2_0 : m2 0 ≠ 0 := by
      rw [hm2_low 0 (by omega) (by omega)]
      exact h0
    have hlen2 : rest.length ≤ freeCount m2 := by omega
    obtain ⟨iha, ihb, ihc, ihd, ihe⟩ := ih m2 pt hpt hnodupr hboundr hm2_0 hlen2
    have hside : ∀ j ∈ rest, (256 * pt + i0) ≠ 256 * pt + j := by
      intro j hj
      have hne : i0 ≠ j := fun he2 => hnodup0 (by rwa [← he2] at hj)
      omega
    have hentry0 : new_process_loop pt m2 rest (256 * pt + i0) = d := by
      rw [iha (256 * pt + i0) (by omega) hside, hm2_entry0]
    have hrd : new_process_loop pt m2 rest d = 1 := by
      rw [ihb d hd64 (by rw [hm2_d]; norm_num)]
      exact hm2_d
    rw [hstep]
    refine ⟨?_, ?_, ?_, ?_, ?_⟩
    · intro a ha hne
      have hrest : ∀ i ∈ rest, a ≠ 256 * pt + i := fun i hi =>
        hne i (List.mem_cons_of_mem _ hi)
      rw [iha a ha hrest]
      exact hm2_frame a ha (hne i0 (List.mem_cons_self _ _))
    · intro a ha hnz
      have had : a ≠ d := fun he => hnz (by rwa [he])
      have hm2a : m2 a = m a := hm2_low a (by omega) had
      rw [ihb a ha (by rw [hm2a]; exact hnz), hm2a]
    · intro i hi
      rcases List.mem_cons.mp hi with he | hi'
      · subst he
        rw [hentry0]
        exact ⟨hdpos, hd64, hd0, hrd⟩
      · obtain ⟨hpos, hlt, hm2e, hre⟩ := ihc i hi'
        refine ⟨hpos, hlt, ?_, hre⟩
        have hed : new_process_loop pt m2 rest (256 * pt + i) ≠ d := by
          intro he2
          rw [he2, hm2_d] at hm2e
          exact absurd hm2e one_ne_zero
        have hlow := hm2_low (new_process_loop pt m2 rest (256 * pt + i)) (by omega) hed
        rw [← hlow]
        exact hm2e
    · intro i hi j hj hne
      rcases List.mem_cons.mp hi with hei | hi' <;> rcases List.mem_cons.mp hj with hej | hj'
      · rw [hei] at hne
        rw [hej] at hne
        exact absurd rfl hne
      · subst hei
        rw [hentry0]
        obtain ⟨-, -, hm2ej, -⟩ := ihc j hj'
        intro heq
        rw [← heq, hm2_d] at hm2ej
        exact absurd hm2ej one_ne_zero
      · subst hej
        rw [hentry0]
        obtain ⟨-, -, hm2ei, -⟩ := ihc i hi'
        intro heq
        rw [heq, hm2_d] at hm2ei
        exact absurd hm2ei one_ne_zero
      · exact ihd i hi' j hj' hne
    · rw [ihe, hm2_count]
      simp only [List.length_cons]
      omega

theorem freeCount_le (m : Mem) : freeCount m ≤ PTP_OFFSET := by
  unfold freeCount
  calc (List.range PTP_OFFSET).countP (fun i => m i == 0)
      ≤ (List.range PTP_OFFSET).length := List.countP_le_length _
    _ = PTP_OFFSET := List.length_range _

/-- `new_process` under its success preconditions (valid process id, page 0
    allocated, at least `k + 1` free pages): the directory names a fresh
    nonzero page table page, the `k` data pages are distinct, nonzero,
    allocated, different from the page table page, and exactly `k + 1` free
    pages are consumed. -/
theorem new_process_success (m : Mem) (p k : Nat) (h0 : m 0 ≠ 0) (hp : p < PAGE_COUNT)
    (hk : k + 1 ≤ freeCount m) :
    ∀ s pt, s = new_process m p k → pt = get_page_table s p →
      0 < pt ∧ pt < PTP_OFFSET ∧ s pt = 1 ∧ m pt = 0 ∧
      freeCount s = freeCount m - (k + 1) ∧
      (∀ i, i < k → 0 < s (256 * pt + i) ∧ s (256 * pt + i) < PTP_OFFSET ∧
        s (256 * pt + i) ≠ pt ∧ s (s (256 * pt + i)) = 1) ∧
      (∀ i j, i < k → j < k → i ≠ j → s (256 * pt + i) ≠ s (256 * pt + j)) := by
  intro s pt hs hpt
  have hPTP : PTP_OFFSET = 64 := rfl
  have hPS : PAGE_SIZE = 256 := rfl
  have hPC : PAGE_COUNT = 64 := rfl
  have hfle := freeCount_le m
  have hfree : ∃ j, j < PTP_OFFSET ∧ m j = 0 := (freeCount_pos_iff m).mp (by omega)
  obtain ⟨pt0, halloc, hpt64, hpt0m, -⟩ := (allocate_next_page_characterization m).1 hfree
  have hpt0pos : 0 < pt0 := Nat.pos_of_ne_zero fun he => h0 (by rwa [he] at hpt0m)
  have hnp : new_process m p k
      = new_process_loop pt0
          (writeMem (writeMem m pt0 1) (PTP_OFFSET + p) pt0) (List.range k) := by
    simp only [new_process, halloc, set_page_table, get_address_zero]
  set mB := writeMem (writeMem m pt0 1) (PTP_OFFSET + p) pt0 with hmBdef
  have hmB_low : ∀ a, a < PTP_OFFSET → a ≠ pt0 → mB a = m a := by
    intro a ha hne
    rw [hmBdef, writeMem_other _ pt0 (by omega), writeMem_other m 1 hne]
  have hmB_pt0 : mB pt0 = 1 := by
    rw [hmBdef, writeMem_other _ pt0 (by omega), writeMem_same]
  have hmB_dir : mB (PTP_OFFSET + p) = pt0 := by
    rw [hmBdef, writeMem_same]
    omega
  have hmB_0 : mB 0 ≠ 0 := by
    rw [hmB_low 0 (by omega) (by omega)]
    exact h0
  have hmB_count : freeCount mB = freeCount m - 1 := by
    have h1 := freeCount_write_free (m := m) (a := pt0) 1 hpt64 hpt0m (by norm_num)
    have h2 : freeCount mB = freeCount (writeMem m pt0 1) := by
      rw [hmBdef]
      exact freeCount_write_high _ _ _ (by omega)
    omega
  have hbounds : ∀ i ∈ List.range k, i < PAGE_SIZE := by
    intro i hi
    have := List.mem_range.mp hi
    omega
  have hlenB : (List.range k).length ≤ freeCount mB := by
    simp only [List.length_range]
    omega
  obtain ⟨nplA, nplB, nplC, nplD, nplE⟩ :=
    new_process_loop_spec (List.range k) mB pt0 hpt0pos (List.nodup_range k)
      hbounds hmB_0 hlenB
  have hdirside : ∀ i ∈ List.range k, PTP_OFFSET + p ≠ 256 * pt0 + i := by
    intro i hi
    omega
  have hdir : get_page_table (new_process m p k) p = pt0 := by
    unfold get_page_table
    rw [get_address_zero, hnp, nplA (PTP_OFFSET + p) (by omega) hdirside, hmB_dir]
  subst hs
  subst hpt
  rw [hdir, hnp]
  refine ⟨hpt0pos, hpt64, ?_, hpt0m, ?_, ?_, ?_⟩
  · rw [nplB pt0 hpt64 (by rw [hmB_pt0]; norm_num)]
    exact hmB_pt0
  · rw [nplE]
    simp only [List.length_range]
    omega
  · intro i hik
    have hmem := List.mem_range.mpr hik
    obtain ⟨ha, hb, hc, hd⟩ := nplC i hmem
    refine ⟨ha, hb, ?_, hd⟩
    intro heq
    rw [heq, hmB_pt0] at hc
    exact absurd hc one_ne_zero
  · intro i j hik hjk hne
    exact nplD i (List.mem_range.mpr hik) j (List.mem_range.mpr hjk) hne

/-- Accounting for the kill scan: when the nonzero entries of the scanned
    page table are distinct page numbers below `PTP_OFFSET`, all allocated
    and different from `pt`, the scan frees exactly the nonzero entries and
    leaves `pt`'s bitmap byte and every address at or above `PTP_OFFSET`
    unchanged. -/
theorem kill_loop_count (l : List Nat) :
    ∀ (m : Mem) (pt : Nat), 0 < pt → l.Nodup → (∀ i ∈ l, i < PAGE_SIZE) →
      (∀ i ∈ l, m (256 * pt + i) < PTP_OFFSET) →
      (∀ i ∈ l, m (256 * pt + i) ≠ 0 → m (m (256 * pt + i)) ≠ 0) →
      (∀ i ∈ l, m (256 * pt + i) ≠ 0 → m (256 * pt + i) ≠ pt) →
      (∀ i ∈ l, ∀ j ∈ l, i ≠ j → m (256 * pt + i) ≠ 0 →
        m (256 * pt + i) ≠ m (256 * pt + j)) →
      freeCount (kill_loop pt l m)
          = freeCount m + (l.countP fun i => m (256 * pt + i) != 0) ∧
        kill_loop pt l m pt = m pt ∧
        ∀ a, PTP_OFFSET ≤ a → kill_loop pt l m a = m a := by
  induction l with
  | nil =>
    intro m pt _ _ _ _ _ _ _
    exact ⟨by simp [kill_loop], rfl, fun a _ => rfl⟩
  | cons i1 rest ih =>
    intro m pt hpt hnodup hbound hlt halloc hnept hdist
    have hPTP : PTP_OFFSET = 64 := rfl
    have hPS : PAGE_SIZE = 256 := rfl
    have hi1 : i1 < PAGE_SIZE := hbound i1 (List.mem_cons_self _ _)
    have haddr : get_address pt i1 = 256 * pt + i1 := get_address_eq pt (by omega)
    have hptbig : 256 ≤ 256 * pt := by omega
    obtain ⟨hnodup1, hnodupr⟩ := List.nodup_cons.mp hnodup
    have hmemr : ∀ j ∈ rest, j ∈ i1 :: rest := fun j hj => List.mem_cons_of_mem _ hj
    have hmem1 : i1 ∈ i1 :: rest := List.mem_cons_self _ _
    by_cases hz : m (256 * pt + i1) = 0
    · have hstep : kill_loop pt (i1 :: rest) m = kill_loop pt rest m := by
        simp only [kill_loop, haddr, hz]
        norm_num
      obtain ⟨c1, c2, c3⟩ := ih m pt hpt hnodupr
        (fun j hj => hbound j (hmemr j hj)) (fun j hj => hlt j (hmemr j hj))
        (fun j hj => halloc j (hmemr j hj)) (fun j hj => hnept j (hmemr j hj))
        (fun i hi j hj hne => hdist i (hmemr i hi) j (hmemr j hj) hne)
      refine ⟨?_, by rw [hstep]; exact c2, fun a ha => by rw [hstep]; exact c3 a ha⟩
      rw [hstep, c1, List.countP_cons]
      simp [hz]
    · have he64 : m (256 * pt + i1) < PTP_OFFSET := hlt i1 hmem1
      have healloc : m (m (256 * pt + i1)) ≠ 0 := halloc i1 hmem1 hz
      have henept : m (256 * pt + i1) ≠ pt := hnept i1 hmem1 hz
      have hstep : kill_loop pt (i1 :: rest) m
          = kill_loop pt rest (writeMem m (m (256 * pt + i1)) 0) := by
        simp only [kill_loop, haddr, if_pos hz]
      set m2 := writeMem m (m (256 * pt + i1)) 0 with hm2def
      have hm2count : freeCount m2 = freeCount m + 1 :=
        freeCount_write_used he64 healloc
      have hm2high : ∀ a, PTP_OFFSET ≤ a → m2 a = m a := by
        intro a ha
        rw [hm2def, writeMem_other m 0 (by omega)]
      have hm2pt : m2 pt = m pt := by
        rw [hm2def, writeMem_other m 0 (Ne.symm henept)]
      have hm2entry : ∀ j, j < PAGE_SIZE → m2 (256 * pt + j) = m (256 * pt + j) :=
        fun j _ => hm2high _ (by omega)
      obtain ⟨c1, c2, c3⟩ := ih m2 pt hpt hnodupr
        (fun j hj => hbound j (hmemr j hj))
        (fun j hj => by
          rw [hm2entry j (hbound j (hmemr j hj))]
          exact hlt j (hmemr j hj))
        (fun j hj hjz => by
          rw [hm2entry j (hbound j (hmemr j hj))] at hjz ⊢
          have hne1 : i1 ≠ j := fun he => hnodup1 (by rwa [he])
          have hval := hdist i1 hmem1 j (hmemr j hj) hne1 hz
          rw [hm2def, writeMem_other m 0 (Ne.symm hval)]
          exact halloc j (hmemr j hj) hjz)
        (fun j hj hjz => by
          rw [hm2entry j (hbound j (hmemr j hj))] at hjz ⊢
          exact hnept j (hmemr j hj) hjz)
        (fun i hi j hj hne hiz => by
          rw [hm2entry i (hbound i (hmemr i hi))] at hiz ⊢
          rw [hm2entry j (hbound j (hmemr j hj))]
          exact hdist i (hmemr i hi) j (hmemr j hj) hne hiz)
      refine ⟨?_, ?_, ?_⟩
      · rw [hstep, c1, List.countP_cons]
        have hcong : (rest.countP fun i => m2 (256 * pt + i) != 0)
            = rest.countP fun i => m (256 * pt + i) != 0 := by
          apply List.countP_congr
          intro x hx
          rw [hm2entry x (hbound x (hmemr x hx))]
        rw [hcong]
        simp [hz, hm2count]
        omega
      · rw [hstep, c2, hm2pt]
      · intro a ha
        rw [hstep, c3 a ha, hm2high a ha]

theorem freeCount_zero_all (m : Mem) (h : freeCount m = 0) :
    ∀ i, i < PTP_OFFSET → m i ≠ 0 := by
  intro i hi hz
  have hpos := (freeCount_pos_iff m).mpr ⟨i, hi, hz⟩
  omega

theorem allocate_next_page_fails (m : Mem) (h : freeCount m = 0) :
    allocate_next_page m = (none, m) :=
  (allocate_next_page_characterization m).2 (freeCount_zero_all m h)

/-- A failing head allocation stops the whole data-page loop at once. -/
theorem new_process_loop_oom (m : Mem) (pt x : Nat) (l : List Nat)
    (h : freeCount m = 0) : new_process_loop pt m (x :: l) = m := by
  simp only [new_process_loop, allocate_next_page_fails m h]

theorem allocate_loop_none_eq (l : List Nat) :
    ∀ (m m1 : Mem), allocate_loop m l = (none, m1) → m1 = m := by
  induction l with
  | nil =>
    intro m m1 h
    exact (Prod.mk.injEq _ _ _ _ ▸ h).2.symm
  | cons i rest ih =>
    intro m m1 h
    by_cases hi : m i = 0
    · simp only [allocate_loop, if_pos hi] at h
      exact absurd (congrArg Prod.fst h) (by simp)
    · simp only [allocate_loop, if_neg hi] at h
      exact ih m m1 h

/-- The data-page loop composes over list append: a failed allocation leaves
    the memory unchanged, so the loop keeps failing on the second part. -/
theorem new_process_loop_append (l1 l2 : List Nat) :
    ∀ (m : Mem) pt, new_process_loop pt m (l1 ++ l2)
      = new_process_loop pt (new_process_loop pt m l1) l2 := by
  induction l1 with
  | nil => intro m pt; rfl
  | cons i rest ih =>
    intro m pt
    rcases heq : allocate_next_page m with ⟨r, m1⟩
    rcases r with _ | page
    · have hm1 : m1 = m := allocate_loop_none_eq (List.range PTP_OFFSET) m m1 heq
      subst hm1
      simp only [List.cons_append, new_process_loop, heq]
      cases l2 with
      | nil => rfl
      | cons x xs => simp only [new_process_loop, heq]
    · simp only [List.cons_append, new_process_loop, heq]
      exact ih _ pt

theorem kill_loop_keeps_zero (l : List Nat) :
    ∀ pt (m : Mem), kill_loop pt l m 0 = m 0 := by
  induction l with
  | nil => intro pt m; rfl
  | cons i rest ih =>
    intro pt m
    simp only [kill_loop]
    by_cases hp : m (get_address pt i) ≠ 0
    · rw [if_pos hp, ih, writeMem_other m 0 (Ne.symm hp)]
    · rw [if_neg hp, ih]

theorem byteMem_zero : ByteMem (fun _ => 0) := by
  intro a
  norm_num

theorem byteMem_writeMem {m : Mem} (hB : ByteMem m) (a v : Nat) :
    ByteMem (writeMem m a v) := by
  intro b
  unfold writeMem
  by_cases h : b = a
  · rw [if_pos h]
    exact Nat.mod_lt _ (by norm_num)
  · rw [if_neg h]
    exact hB b

/-- The kill scan writes only at indices named by the byte values it reads,
    so when the scanned entries are page numbers below `PAGE_COUNT` every
    address from `PAGE_COUNT` upwards is untouched. -/
theorem kill_loop_frame (l : List Nat) :
    ∀ (m : Mem) (pt : Nat), 0 < pt → (∀ i ∈ l, i < PAGE_SIZE) →
      (∀ i ∈ l, m (get_address pt i) < PAGE_COUNT) →
      ∀ b, PAGE_COUNT ≤ b → kill_loop pt l m b = m b := by
  induction l with
  | nil => intro m pt _ _ _ b _; rfl
  | cons i1 rest ih =>
    intro m pt hpt hbound hlt b hb
    have hPS : PAGE_SIZE = 256 := rfl
    have hPC : PAGE_COUNT = 64 := rfl
    have hi1 : i1 < PAGE_SIZE := hbound i1 (List.mem_cons_self _ _)
    have haddr : get_address pt i1 = 256 * pt + i1 := get_address_eq pt (by omega)
    have he : m (get_address pt i1) < PAGE_COUNT := hlt i1 (List.mem_cons_self _ _)
    by_cases hz : m (get_address pt i1) = 0
    · have hstep : kill_loop pt (i1 :: rest) m = kill_loop pt rest m := by
        simp only [kill_loop, hz]
        norm_num
      rw [hstep]
      exact ih m pt hpt (fun j hj => hbound j (List.mem_cons_of_mem _ hj))
        (fun j hj => hlt j (List.mem_cons_of_mem _ hj)) b hb
    · have hstep : kill_loop pt (i1 :: rest) m
          = kill_loop pt rest (writeMem m (m (get_address pt i1)) 0) := by
        simp only [kill_loop, if_pos hz]
      rw [hstep]
      have hpres : ∀ j ∈ rest, writeMem m (m (get_address pt i1)) 0 (get_address pt j)
          = m (get_address pt j) := by
        intro j hj
        have hjb : j < PAGE_SIZE := hbound j (List.mem_cons_of_mem _ hj)
        have haj : get_address pt j = 256 * pt + j := get_address_eq pt (by omega)
        rw [writeMem_other m 0 (by omega)]
      rw [ih _ pt hpt (fun j hj => hbound j (List.mem_cons_of_mem _ hj))
        (fun j hj => by rw [hpres j hj]; exact hlt j (List.mem_cons_of_mem _ hj)) b hb]
      rw [writeMem_other m 0 (by omega)]

/-- With byte-valued cells, every write of the kill scan lands inside page 0,
    so all addresses from `PAGE_SIZE` upwards are untouched. -/
theorem kill_loop_frame_high (l : List Nat) :
    ∀ (m : Mem) (pt : Nat), ByteMem m →
      ∀ a, PAGE_SIZE ≤ a → kill_loop pt l m a = m a := by
  induction l with
  | nil => intro m pt _ a _; rfl
  | cons i1 rest ih =>
    intro m pt hB a ha
    have hPS : PAGE_SIZE = 256 := rfl
    have he : m (get_address pt i1) < 256 := hB _
    by_cases hz : m (get_address pt i1) = 0
    · have hstep : kill_loop pt (i1 :: rest) m = kill_loop pt rest m := by
        simp only [kill_loop, hz]
        norm_num
      rw [hstep]
      exact ih m pt hB a ha
    · have hstep : kill_loop pt (i1 :: rest) m
          = kill_loop pt rest (writeMem m (m (get_address pt i1)) 0) := by
        simp only [kill_loop, if_pos hz]
      rw [hstep, ih _ pt (byteMem_writeMem hB _ _) a ha,
        writeMem_other m 0 (by omega)]

theorem kill_process_keeps_zero (m : Mem) (p : Nat) (h : m 0 ≠ 0)
    (hpt : get_page_table m p ≠ 0) : kill_process m p 0 ≠ 0 := by
  simp only [kill_process]
  rw [writeMem_other _ 0 (Ne.symm hpt), kill_loop_keeps_zero]
  exact h

theorem store_value_keeps_zero (m : Mem) (p v x : Nat) (h : m 0 ≠ 0)
    (hg : translate_virtual_address m p v ≠ 0 ∨ x % 256 ≠ 0) :
    store_value m p v x 0 ≠ 0 := by
  unfold store_value
  by_cases haddr : translate_virtual_address m p v = 0
  · rcases hg with hg | hg
    · exact absurd haddr hg
    · rw [haddr, writeMem_same]
      exact hg
  · rw [writeMem_other m x (Ne.symm haddr)]
    exact h

theorem runOp_keeps_zero (m : Mem) (op : Op) (h : m 0 ≠ 0) (hg : guardOk m op) :
    runOp m op 0 ≠ 0 := by
  cases op with
  | np p k => exact new_process_keeps_zero m p k h
  | kp p => exact kill_process_keeps_zero m p h hg
  | sb p v x => exact store_value_keeps_zero m p v x h hg
  | lb p v => exact h

theorem runTrace_keeps_zero (ops : List Op) :
    ∀ m : Mem, m 0 ≠ 0 → guardedTrace m ops → runTrace m ops 0 ≠ 0 := by
  induction ops with
  | nil => intro m h _; exact h
  | cons op rest ih =>
    intro m h hg
    exact ih (runOp m op) (runOp_keeps_zero m op h hg.1) hg.2

/-! ### Claim C1 (corrected): page 0 stays allocated only under guards -/

/-- Counterexample to claim C1 as stated: from the initial state,
    `kill_process 0` (process 0 was never created, its directory entry is 0)
    clears the bitmap byte of page 0, after which `allocate_next_page`
    returns page 0; and `store_value` through an unmapped page-table entry
    can likewise zero the bitmap byte of page 0. -/
theorem page_zero_freed_counterexample :
    initialize_mem 0 = 1 ∧
      kill_process initialize_mem 0 0 = 0 ∧
      (allocate_next_page (kill_process initialize_mem 0)).1 = some 0 ∧
      store_value (new_process initialize_mem 0 1) 0 256 0 0 = 0 := by
  refine ⟨by decide, by decide, by decide, by decide⟩

/-- Claim C1 (amended): page 0 is marked allocated at initialization, and in
    every state reached by a sequence of lifecycle operations whose
    `kill_process` calls all find a nonzero directory entry and whose
    `store_value` calls each resolve to a nonzero physical address or store a
    nonzero byte, the bitmap byte for page 0 remains nonzero and
    `allocate_next_page` never returns page 0. -/
theorem page_zero_stays_allocated (ops : List Op)
    (hg : guardedTrace initialize_mem ops) :
    initialize_mem (get_address 0 0) = 1 ∧
      runTrace initialize_mem ops 0 ≠ 0 ∧
      (allocate_next_page (runTrace initialize_mem ops)).1 ≠ some 0 := by
  have h0 : initialize_mem 0 ≠ 0 := by decide
  have hrun := runTrace_keeps_zero ops initialize_mem h0 hg
  exact ⟨by decide, hrun,
    (allocate_next_page_keeps_zero (runTrace initialize_mem ops) hrun).2⟩

theorem page_zero_stays_allocated_witness :
    guardedTrace initialize_mem [Op.np 0 1] ∧
      runTrace initialize_mem [Op.np 0 1] 0 ≠ 0 :=
  ⟨⟨trivial, trivial⟩,
    (page_zero_stays_allocated [Op.np 0 1] ⟨trivial, trivial⟩).2.1⟩

/-! ### Claim C2: killing a process whose directory entry is 0 -/

/-- Claim C2: if process `proc_num`'s directory entry is 0, `kill_process`
    treats page 0 itself as the page table: it runs the clearing loop of
    `killZeroSpec` over the bytes of page 0 (for every offset whose byte is
    nonzero, clear the byte at the index it names) and finally clears the
    byte at index 0, leaving page 0 marked free in the bitmap. -/
theorem kill_process_zero_dir (m : Mem) (proc_num : Nat)
    (h : get_page_table m proc_num = 0) :
    kill_process m proc_num = killZeroSpec m ∧ kill_process m proc_num 0 = 0 := by
  have hmain : kill_process m proc_num = killZeroSpec m := by
    simp only [kill_process, killZeroSpec, h]
    rw [kill_loop_zero_pt]
  refine ⟨hmain, ?_⟩
  rw [hmain]
  unfold killZeroSpec
  rw [writeMem_same]

theorem kill_process_zero_dir_witness :
    get_page_table initialize_mem 0 = 0 ∧
      kill_process initialize_mem 0 = killZeroSpec initialize_mem ∧
      kill_process initialize_mem 0 0 = 0 :=
  ⟨by decide, kill_process_zero_dir initialize_mem 0 (by decide)⟩

/-! ### Claim C3: the allocator takes the lowest free page -/

/-- Claim C3: `allocate_next_page` scans the bitmap over `[0, PTP_OFFSET)` in
    increasing order; when some byte there is 0 it returns the lowest such
    index and sets that byte nonzero (to 1), and when none is 0 it returns
    failure (`none`, the -1 of the C code) and leaves all memory unchanged. -/
theorem allocate_next_page_spec (m : Mem) :
    ((∃ j, j < PTP_OFFSET ∧ m j = 0) →
      ∃ j, allocate_next_page m = (some j, writeMem m j 1) ∧
        j < PTP_OFFSET ∧ m j = 0 ∧ ∀ i, i < j → m i ≠ 0) ∧
    ((∀ i, i < PTP_OFFSET → m i ≠ 0) → allocate_next_page m = (none, m)) :=
  allocate_next_page_characterization m

theorem allocate_next_page_spec_witness :
    (∃ j, allocate_next_page initialize_mem = (some j, writeMem initialize_mem j 1) ∧
      j < PTP_OFFSET ∧ initialize_mem j = 0 ∧ ∀ i, i < j → initialize_mem i ≠ 0) ∧
      allocate_next_page fullBitmap = (none, fullBitmap) :=
  ⟨(allocate_next_page_spec initialize_mem).1 ⟨1, by decide, by decide⟩,
    (allocate_next_page_spec fullBitmap).2 (by decide)⟩

/-! ### Claim C4 (corrected): kill after new frees exactly k+1 pages only
    when the page-table page carries no stale entries -/

set_option maxRecDepth 100000 in
set_option maxHeartbeats 4000000 in
/-- Counterexample to claim C4 as stated: after `staleTrace`,
    `new_process 1 0` has just succeeded (the directory entry of process 1 is
    page 1) and nothing disturbed its page table afterwards, yet page 1 still
    holds a stale entry naming page 2, which is allocated again; so
    `kill_process 1` raises the free count from 61 to 63, regaining 2 free
    pages instead of k + 1 = 1. -/
theorem kill_after_new_counterexample :
    get_page_table (runTrace initialize_mem staleTrace) 1 = 1 ∧
      freeCount (runTrace initialize_mem staleTrace) = 61 ∧
      freeCount (kill_process (runTrace initialize_mem staleTrace) 1) = 63 := by
  refine ⟨by decide, by decide, by decide⟩

/-- Claim C4 (amended): for every state in which `new_process p k` succeeds
    without out-of-memory (page 0 allocated, valid process id, at least
    `k + 1` free pages) and in which the resulting page-table page holds no
    stale nonzero byte at offsets in `[k, PAGE_SIZE)`, a subsequent
    `kill_process p` returns the page table page and all `k` data pages to
    the free state: the free-page bitmap regains exactly `k + 1` free
    entries. -/
theorem kill_after_new_frees (m : Mem) (p k : Nat)
    (hp : p < PAGE_COUNT) (h0 : m 0 ≠ 0) (hk : k + 1 ≤ freeCount m)
    (hclean : ∀ i, i < PAGE_SIZE → k ≤ i →
      new_process m p k (256 * get_page_table (new_process m p k) p + i) = 0) :
    freeCount (kill_process (new_process m p k) p)
      = freeCount (new_process m p k) + (k + 1) := by
  have hPTP : PTP_OFFSET = 64 := rfl
  have hPS : PAGE_SIZE = 256 := rfl
  have hfle := freeCount_le m
  obtain ⟨hptpos, hptlt, hspt, hmpt, hcount, hentries, hdist⟩ :=
    new_process_success m p k h0 hp hk (new_process m p k)
      (get_page_table (new_process m p k) p) rfl rfl
  set s := new_process m p k with hsdef
  set pt := get_page_table s p with hptdef
  have hkb : k ≤ 63 := by omega
  have hboundall : ∀ i ∈ List.range PAGE_SIZE, i < PAGE_SIZE := fun i hi =>
    List.mem_range.mp hi
  have hltall : ∀ i ∈ List.range PAGE_SIZE, s (256 * pt + i) < PTP_OFFSET := by
    intro i hi
    by_cases hik : i < k
    · exact (hentries i hik).2.1
    · rw [hclean i (List.mem_range.mp hi) (by omega)]
      omega
  have hallocall : ∀ i ∈ List.range PAGE_SIZE,
      s (256 * pt + i) ≠ 0 → s (s (256 * pt + i)) ≠ 0 := by
    intro i hi hnz
    by_cases hik : i < k
    · rw [(hentries i hik).2.2.2]
      norm_num
    · rw [hclean i (List.mem_range.mp hi) (by omega)] at hnz
      exact absurd rfl hnz
  have hneptall : ∀ i ∈ List.range PAGE_SIZE,
      s (256 * pt + i) ≠ 0 → s (256 * pt + i) ≠ pt := by
    intro i hi hnz
    by_cases hik : i < k
    · exact (hentries i hik).2.2.1
    · rw [hclean i (List.mem_range.mp hi) (by omega)] at hnz
      exact absurd rfl hnz
  have hdistall : ∀ i ∈ List.range PAGE_SIZE, ∀ j ∈ List.range PAGE_SIZE, i ≠ j →
      s (256 * pt + i) ≠ 0 → s (256 * pt + i) ≠ s (256 * pt + j) := by
    intro i hi j hj hne hnz
    by_cases hik : i < k
    · by_cases hjk : j < k
      · exact hdist i j hik hjk hne
      · rw [hclean j (List.mem_range.mp hj) (by omega)]
        exact hnz
    · rw [hclean i (List.mem_range.mp hi) (by omega)] at hnz
      exact absurd rfl hnz
  obtain ⟨kc1, kc2, kc3⟩ := kill_loop_count (List.range PAGE_SIZE) s pt hptpos
    (List.nodup_range _) hboundall hltall hallocall hneptall hdistall
  have hks : PAGE_SIZE = k + (PAGE_SIZE - k) := by omega
  have hsplit : List.range PAGE_SIZE
      = List.range k ++ (List.range (PAGE_SIZE - k)).map (k + ·) := by
    nth_rewrite 1 [hks]
    exact List.range_add k (PAGE_SIZE - k)
  have hcountP : ((List.range PAGE_SIZE).countP fun i => s (256 * pt + i) != 0) = k := by
    rw [hsplit, List.countP_append]
    have h1 : ((List.range k).countP fun i => s (256 * pt + i) != 0)
        = (List.range k).length :=
      List.countP_eq_length.mpr (by
        intro a ha
        have hak := List.mem_range.mp ha
        have hpos := (hentries a hak).1
        simp only [bne_iff_ne, ne_eq]
        omega)
    have h2 : (((List.range (PAGE_SIZE - k)).map (k + ·)).countP
        fun i => s (256 * pt + i) != 0) = 0 :=
      List.countP_eq_zero.mpr (by
        intro a ha
        obtain ⟨b, hb, hab⟩ := List.mem_map.mp ha
        have hbk := List.mem_range.mp hb
        rw [← hab, hclean (k + b) (by omega) (by omega)]
        simp)
    rw [h1, h2, List.length_range]
    omega
  have hkp : kill_process s p
      = writeMem (kill_loop (get_page_table s p) (List.range PAGE_SIZE) s)
          (get_page_table s p) 0 := rfl
  rw [← hptdef] at hkp
  rw [hkp, freeCount_write_used hptlt (by rw [kc2, hspt]; norm_num), kc1, hcountP]
  omega

set_option maxRecDepth 100000 in
set_option maxHeartbeats 4000000 in
theorem kill_after_new_frees_witness :
    0 < PAGE_COUNT ∧ initialize_mem 0 ≠ 0 ∧ 1 + 1 ≤ freeCount initialize_mem ∧
      freeCount (kill_process (new_process initialize_mem 0 1) 0)
        = freeCount (new_process initialize_mem 0 1) + (1 + 1) :=
  ⟨by decide, by decide, by decide,
    kill_after_new_frees initialize_mem 0 1 (by decide) (by decide) (by decide)
      (by decide)⟩

/-! ### Claim C5: out-of-memory semantics of new_process -/

/-- Claim C5: when `new_process p k` runs out of memory while allocating data
    page `i` (so `i < k` and exactly `i + 1` allocations can succeed: the page
    table plus `i` data pages), it stops immediately without rollback — the
    result equals `new_process p i`, the page table page remains allocated and
    recorded in the directory, the `i` data pages remain allocated and mapped
    in entries `[0, i)`, and the failed allocation changes no memory (the free
    count is exactly exhausted); when the failure occurs on the page-table
    allocation itself (no free page at all), no memory is modified. -/
theorem new_process_oom (m : Mem) (p k i : Nat) :
    (freeCount m = 0 → new_process m p k = m) ∧
    (p < PAGE_COUNT → m 0 ≠ 0 → i < k → freeCount m = i + 1 →
      new_process m p k = new_process m p i ∧
      0 < get_page_table (new_process m p k) p ∧
      new_process m p k (get_page_table (new_process m p k) p) = 1 ∧
      freeCount (new_process m p k) = 0 ∧
      (∀ j, j < i →
        0 < new_process m p k (256 * get_page_table (new_process m p k) p + j) ∧
        new_process m p k
          (new_process m p k
            (256 * get_page_table (new_process m p k) p + j)) = 1)) := by
  constructor
  · intro h
    simp only [new_process, allocate_next_page_fails m h]
  · intro hp h0 hik hfc
    have hPTP : PTP_OFFSET = 64 := rfl
    have hPS : PAGE_SIZE = 256 := rfl
    have hfle := freeCount_le m
    have heq : new_process m p k = new_process m p i := by
      have hfree : ∃ j, j < PTP_OFFSET ∧ m j = 0 := (freeCount_pos_iff m).mp (by omega)
      obtain ⟨pt0, halloc, hpt64, hpt0m, -⟩ :=
        (allocate_next_page_characterization m).1 hfree
      have hpt0pos : 0 < pt0 := Nat.pos_of_ne_zero fun he => h0 (by rwa [he] at hpt0m)
      have hnpk : new_process m p k = new_process_loop pt0
          (writeMem (writeMem m pt0 1) (PTP_OFFSET + p) pt0) (List.range k) := by
        simp only [new_process, halloc, set_page_table, get_address_zero]
      have hnpi : new_process m p i = new_process_loop pt0
          (writeMem (writeMem m pt0 1) (PTP_OFFSET + p) pt0) (List.range i) := by
        simp only [new_process, halloc, set_page_table, get_address_zero]
      set mB := writeMem (writeMem m pt0 1) (PTP_OFFSET + p) pt0 with hmBdef
      have hmB_count : freeCount mB = i := by
        have h1 := freeCount_write_free (m := m) (a := pt0) 1 hpt64 hpt0m (by norm_num)
        have h2 : freeCount mB = freeCount (writeMem m pt0 1) := by
          rw [hmBdef]
          exact freeCount_write_high _ _ _ (by omega)
        omega
      have hmB_0 : mB 0 ≠ 0 := by
        rw [hmBdef, writeMem_other _ pt0 (by omega), writeMem_other m 1 (by omega)]
        exact h0
      have hbounds : ∀ j ∈ List.range i, j < PAGE_SIZE := by
        intro j hj
        have h1 := List.mem_range.mp hj
        omega
      have hlenB : (List.range i).length ≤ freeCount mB := by
        simp only [List.length_range]
        omega
      obtain ⟨-, -, -, -, nplE⟩ :=
        new_process_loop_spec (List.range i) mB pt0 hpt0pos (List.nodup_range i)
          hbounds hmB_0 hlenB
      have hstuck : freeCount (new_process_loop pt0 mB (List.range i)) = 0 := by
        rw [nplE]
        simp only [List.length_range]
        omega
      have hkeq : k = i + (k - i) := by omega
      obtain ⟨d, hd⟩ : ∃ d, k - i = d + 1 := ⟨k - i - 1, by omega⟩
      rw [hnpk, hnpi, hkeq, List.range_add, new_process_loop_append, hd,
        List.range_succ_eq_map, List.map_cons]
      exact new_process_loop_oom _ pt0 _ _ hstuck
    obtain ⟨hptpos, -, hspt, -, hcount, hentries, -⟩ :=
      new_process_success m p i h0 hp (by omega) (new_process m p i)
        (get_page_table (new_process m p i) p) rfl rfl
    rw [heq]
    refine ⟨rfl, hptpos, hspt, by omega, ?_⟩
    intro j hj
    obtain ⟨ha, -, -, hd4⟩ := hentries j hj
    exact ⟨ha, hd4⟩

set_option maxRecDepth 100000 in
set_option maxHeartbeats 4000000 in
theorem new_process_oom_witness :
    (freeCount fullBitmap = 0 ∧ new_process fullBitmap 0 5 = fullBitmap) ∧
      freeCount nearFull = 1 + 1 ∧
      new_process nearFull 0 3 = new_process nearFull 0 1 ∧
      freeCount (new_process nearFull 0 3) = 0 :=
  ⟨⟨by decide, (new_process_oom fullBitmap 0 5 0).1 (by decide)⟩,
    by decide,
    ((new_process_oom nearFull 0 3 1).2 (by decide) (by decide) (by decide)
      (by decide)).1,
    ((new_process_oom nearFull 0 3 1).2 (by decide) (by decide) (by decide)
      (by decide)).2.2.2.1⟩

/-! ### Claim C6: address composition and splitting are mutual inverses -/

/-- Claim C6: for every `page ∈ [0, PAGE_COUNT)` and `offset ∈ [0, PAGE_SIZE)`,
    splitting the composed address with the code's shift/mask recovers the
    pair: `get_address page offset >>> PAGE_SHIFT = page` and
    `get_address page offset &&& (PAGE_SIZE - 1) = offset`. -/
theorem compose_split_inverse (page offset : Nat)
    (hp : page < PAGE_COUNT) (ho : offset < PAGE_SIZE) :
    get_address page offset >>> PAGE_SHIFT = page ∧
      get_address page offset &&& (PAGE_SIZE - 1) = offset := by
  have hp' : 0 ≤ page := Nat.zero_le page
  have ho' : offset < 256 := ho
  rw [get_address_eq page ho']
  unfold PAGE_SHIFT PAGE_SIZE
  rw [shiftRight_8_eq_div, and_255_eq_mod]
  omega

theorem compose_split_inverse_witness :
    5 < PAGE_COUNT ∧ 7 < PAGE_SIZE ∧
      get_address 5 7 >>> PAGE_SHIFT = 5 ∧ get_address 5 7 &&& (PAGE_SIZE - 1) = 7 :=
  ⟨by decide, by decide,
    compose_split_inverse 5 7 (by decide) (by decide)⟩

/-! ### Claim C7: translation through an unmapped entry lands in page 0 -/

/-- Claim C7: if the page-table entry that `translate_virtual_address` reads
    for `vaddr` is 0 (unmapped), the returned physical address lies inside
    page 0, that is in `[0, PAGE_SIZE)`; no error is raised. -/
theorem translate_unmapped_in_page_zero (m : Mem) (proc_num vaddr : Nat)
    (h : m (get_address (get_page_table m proc_num) (vaddr >>> 8)) = 0) :
    translate_virtual_address m proc_num vaddr < PAGE_SIZE := by
  simp only [translate_virtual_address]
  rw [h, get_address_zero, and_255_eq_mod]
  exact Nat.mod_lt _ (by norm_num)

theorem translate_unmapped_in_page_zero_witness :
    initialize_mem (get_address (get_page_table initialize_mem 0) (256 >>> 8)) = 0 ∧
      translate_virtual_address initialize_mem 0 256 < PAGE_SIZE :=
  ⟨by decide, translate_unmapped_in_page_zero initialize_mem 0 256 (by decide)⟩

/-! ### Claim C8: kill_process leaves the directory entry dangling -/

/-- Claim C8: `kill_process p` does not modify process `p`'s directory byte:
    when the process has a real page table (nonzero table page whose entries
    are page numbers below `PAGE_COUNT`), after the operation the directory
    entry at `PTP_OFFSET + p` still holds the page number of the now-freed
    page table page rather than 0 (the freed page's bitmap byte is 0). -/
theorem kill_process_keeps_dir (m : Mem) (p : Nat)
    (hpt : get_page_table m p ≠ 0) (hptlt : get_page_table m p < PAGE_COUNT)
    (hentries : ∀ i, i < PAGE_SIZE →
      m (get_address (get_page_table m p) i) < PAGE_COUNT) :
    kill_process m p (get_address 0 (PTP_OFFSET + p)) = get_page_table m p ∧
      kill_process m p (get_page_table m p) = 0 := by
  have hPC : PAGE_COUNT = 64 := rfl
  have hPTP : PTP_OFFSET = 64 := rfl
  have hkp : kill_process m p
      = writeMem (kill_loop (get_page_table m p) (List.range PAGE_SIZE) m)
          (get_page_table m p) 0 := rfl
  have hptpos : 0 < get_page_table m p := Nat.pos_of_ne_zero hpt
  constructor
  · rw [get_address_zero, hkp,
      writeMem_other _ 0 (by omega),
      kill_loop_frame (List.range PAGE_SIZE) m (get_page_table m p) hptpos
        (fun i hi => List.mem_range.mp hi)
        (fun i hi => hentries i (List.mem_range.mp hi))
        (PTP_OFFSET + p) (by omega)]
    unfold get_page_table
    rw [get_address_zero]
  · rw [hkp, writeMem_same]

set_option maxRecDepth 100000 in
set_option maxHeartbeats 4000000 in
theorem kill_process_keeps_dir_witness :
    get_page_table (new_process initialize_mem 0 1) 0 ≠ 0 ∧
      kill_process (new_process initialize_mem 0 1) 0
          (get_address 0 (PTP_OFFSET + 0))
        = get_page_table (new_process initialize_mem 0 1) 0 ∧
      kill_process (new_process initialize_mem 0 1) 0
          (get_page_table (new_process initialize_mem 0 1) 0) = 0 :=
  ⟨by decide,
    kill_process_keeps_dir (new_process initialize_mem 0 1) 0
      (by decide) (by decide) (by decide)⟩

/-! ### Claim C9: store then load through the page table -/

/-- Claim C9: from the initial state, after `new_process 0 1` succeeds,
    `store_value 0 0 42` followed by `load_value 0 0` reads back 42, and both
    operations resolve virtual address 0 to the same physical address. -/
theorem store_then_load_42 :
    load_value
        (store_value (new_process initialize_mem 0 1) 0 0 42) 0 0 = 42 ∧
      translate_virtual_address
          (store_value (new_process initialize_mem 0 1) 0 0 42) 0 0 =
        translate_virtual_address (new_process initialize_mem 0 1) 0 0 := by
  decide

/-! ### Claim C10: kill_process writes only inside page 0 -/

/-- Claim C10: for every process whose directory entry is nonzero,
    `kill_process` writes only bytes whose index lies inside page 0 (below
    `PAGE_SIZE`); in particular the contents of the freed page-table page
    itself are left unchanged, so its nonzero entry bytes persist. -/
theorem kill_process_writes_low (m : Mem) (p : Nat) (hB : ByteMem m)
    (hpt : get_page_table m p ≠ 0) :
    (∀ a, PAGE_SIZE ≤ a → kill_process m p a = m a) ∧
      ∀ i, i < PAGE_SIZE →
        kill_process m p (get_address (get_page_table m p) i)
          = m (get_address (get_page_table m p) i) := by
  have hPS : PAGE_SIZE = 256 := rfl
  have hkp : kill_process m p
      = writeMem (kill_loop (get_page_table m p) (List.range PAGE_SIZE) m)
          (get_page_table m p) 0 := rfl
  have hptB : get_page_table m p < 256 := hB _
  have hmain : ∀ a, PAGE_SIZE ≤ a → kill_process m p a = m a := by
    intro a ha
    rw [hkp, writeMem_other _ 0 (by omega),
      kill_loop_frame_high (List.range PAGE_SIZE) m (get_page_table m p) hB a ha]
  refine ⟨hmain, ?_⟩
  intro i hi
  have hptpos : 0 < get_page_table m p := Nat.pos_of_ne_zero hpt
  have haddr : get_address (get_page_table m p) i = 256 * get_page_table m p + i :=
    get_address_eq _ (by omega)
  exact hmain _ (by omega)

theorem kill_process_writes_low_witness :
    get_page_table dirOnly 0 ≠ 0 ∧ kill_process dirOnly 0 1000 = dirOnly 1000 :=
  ⟨by decide,
    (kill_process_writes_low dirOnly 0
      (byteMem_writeMem (byteMem_writeMem byteMem_zero _ _) _ _)
      (by decide)).1 1000 (by decide)⟩

end Ptsim
